import Mathlib

/-!
Shallow embedding of the nix-bundler core (src/src/lib.rs, src/src/main.rs).

Modelling conventions:
* File text is `List Char` (`Text`).  Rust byte offsets become char offsets;
  the `_position` field is diagnostic only in the source, so this only affects
  the reported column, never control flow.
* Paths (`std::path::PathBuf`) are modelled as `PathV`: an absolute flag plus
  the list of components.  `path_clean::clean` is the purely lexical
  simplification `cleanPath` (the crate implements Go's `path.Clean` on
  components: drop `""`/`"."`, resolve `".."` against the previous component,
  keep leading `".."` on relative paths, drop it at the root of absolute ones).
* The filesystem is a finite association list `FS` from canonical paths to
  text; `fs::read_to_string` on an existing entry always succeeds, so the
  `ReadError` branch of the source is not reachable in the model.
* `std::env::current_dir()` is the explicit `cwd` parameter.
* The two recursive engines (`process_nix_file`, `inline_file_recursive`) are
  given explicit fuel; `none` means the recursion budget was exhausted, and
  sufficiency theorems show a concrete budget never exhausts it.
* `inline_file_recursive` threads a mutable `HashSet` through child calls; the
  function removes its own insertion before every successful return, so on all
  non-error paths the set seen by a sibling equals the set seen on entry.  The
  embedding passes the active-path set functionally (`cp :: stack` to the
  children), which coincides with the source on every run that produces a
  result (errors abort the whole bundle in the source).
-/

abbrev Text := List Char

/-- A `PathBuf`: absolute flag plus raw components (may still contain
`"."`/`".."`/`""` until cleaned). -/
structure PathV where
  abs : Bool
  segs : List String
deriving DecidableEq, Repr

/-- One step of `path_clean::clean`, operating on a reversed output stack. -/
def cleanStep (isAbs : Bool) (out : List String) (seg : String) : List String :=
  if seg = "" ∨ seg = "." then out
  else if seg = ".." then
    match out with
    | [] => if isAbs then [] else [".."]
    | top :: out' => if top = ".." then seg :: top :: out' else out'
  else seg :: out

/-- Fold `cleanStep` over the components (stack is in reverse order). -/
def cleanFold (isAbs : Bool) : List String → List String → List String
  | out, [] => out
  | out, seg :: rest => cleanFold isAbs (cleanStep isAbs out seg) rest

/-- `path_clean::clean` on a component list. -/
def cleanSegs (isAbs : Bool) (segs : List String) : List String :=
  (cleanFold isAbs [] segs).reverse

/-- `path_clean::clean` on a path. -/
def cleanPath (p : PathV) : PathV :=
  ⟨p.abs, cleanSegs p.abs p.segs⟩

/-- `Path::parent`: `None` for the root `/` and for the empty relative path,
otherwise drop the last component. -/
def parentPath (p : PathV) : Option PathV :=
  match p.segs with
  | [] => none
  | _ :: _ => some ⟨p.abs, p.segs.dropLast⟩

/-- `if path.is_absolute() { path } else { cwd.join(path) }`. -/
def joinAbs (cwd p : PathV) : PathV :=
  if p.abs then p else ⟨cwd.abs, cwd.segs ++ p.segs⟩

/-- The canonical identity the source computes for a path: make it absolute
against `cwd`, then clean (lib.rs lines 73-80, 186-193, 46-53). -/
def cleanAbs (cwd p : PathV) : PathV :=
  cleanPath (joinAbs cwd p)

/-- Split a character list on `'/'`, dropping empty components
(`PathBuf` component iteration). -/
def splitSlashAux : List Char → List Char → List String
  | cur, [] => if cur = [] then [] else [String.mk cur.reverse]
  | cur, c :: rest =>
    if c = '/' then
      if cur = [] then splitSlashAux [] rest
      else String.mk cur.reverse :: splitSlashAux [] rest
    else splitSlashAux (c :: cur) rest

/-- `PathBuf::from` on the captured import string. -/
def parsePath (s : Text) : PathV :=
  match s with
  | '/' :: rest => ⟨true, splitSlashAux [] rest⟩
  | _ => ⟨false, splitSlashAux [] s⟩

/-- One import occurrence (struct `NixImport`). -/
structure NixImport where
  path : PathV
  pos : Nat × Nat
  fullImport : Text
deriving DecidableEq, Repr

/-- A parsed file (struct `NixFile`). -/
structure NixFile where
  path : PathV
  content : Text
  imports : List NixImport
deriving DecidableEq, Repr

/-!  Import Scanner: the regex
`import\s+(?:(?:"([^"]+)")|(?:'([^']+)')|([^\s;]+))` applied per line with
`captures_iter` (leftmost, non-overlapping, alternatives tried in order). -/

/-- Try to match the import regex at the start of `l`; returns
(captured path, whole match). -/
def matchAt (l : List Char) : Option (Text × Text) :=
  let kw : List Char := ['i', 'm', 'p', 'o', 'r', 't']
  if l.take 6 = kw then
    let rest := l.drop 6
    let ws := rest.takeWhile (fun c => c.isWhitespace)
    if ws = [] then none
    else
      let r2 := rest.drop ws.length
      let unquoted : Option (Text × Text) :=
        let tok := r2.takeWhile (fun c => ¬ c.isWhitespace ∧ c ≠ ';')
        if tok = [] then none else some (tok, kw ++ ws ++ tok)
      match r2 with
      | '"' :: r3 =>
        let inner := r3.takeWhile (fun c => c ≠ '"')
        if inner ≠ [] ∧ r3.drop inner.length ≠ [] then
          some (inner, kw ++ ws ++ '"' :: (inner ++ ['"']))
        else unquoted
      | '\'' :: r3 =>
        let inner := r3.takeWhile (fun c => c ≠ '\'')
        if inner ≠ [] ∧ r3.drop inner.length ≠ [] then
          some (inner, kw ++ ws ++ '\'' :: (inner ++ ['\'']))
        else unquoted
      | _ => unquoted
  else none

/-- A raw intra-line match: column, captured path, full matched text. -/
structure RawM where
  col : Nat
  path : Text
  full : Text
deriving DecidableEq, Repr

/-- Scan one line left to right for non-overlapping regex matches
(`captures_iter`).  Fuel decreases by one per examined position; the wrapper
passes the line length, which is always enough. -/
def scanGo : Nat → List Char → Nat → List RawM
  | 0, _, _ => []
  | fuel + 1, l, pos =>
    match l with
    | [] => []
    | _ :: t =>
      match matchAt l with
      | some (path, full) =>
        ⟨pos, path, full⟩ :: scanGo fuel (l.drop full.length) (pos + full.length)
      | none => scanGo fuel t (pos + 1)

/-- All matches of one line. -/
def scanLine (l : List Char) : List RawM :=
  scanGo l.length l 0

/-- Split on `'\n'` (every occurrence separates two pieces). -/
def splitNL : List Char → List (List Char)
  | [] => [[]]
  | c :: rest =>
    if c = '\n' then [] :: splitNL rest
    else
      match splitNL rest with
      | [] => [[c]]
      | h :: t => (c :: h) :: t

/-- `str::lines` strips one trailing `'\r'` from a line that was terminated
by `'\n'` (the split ending was `"\r\n"`). -/
def stripCR (l : List Char) : List Char :=
  if l.getLast? = some '\r' then l.dropLast else l

/-- `str::lines`: split on `'\n'`; every piece that was followed by a
newline has a trailing `'\r'` stripped; the final piece is kept verbatim
unless it is the empty piece after a trailing newline, which is dropped. -/
def toLines (content : Text) : List (List Char) :=
  (splitNL content).dropLast.map stripCR ++
    (match (splitNL content).getLast? with
     | some [] => []
     | some l => [l]
     | none => [])

/-- Scan the lines starting at 0-based index `i` (the `enumerate` loop of
`parse_imports`; positions are 1-based lines and 0-based columns). -/
def linesScan : Nat → List (List Char) → List NixImport
  | _, [] => []
  | i, line :: rest =>
    (scanLine line).map (fun m => ⟨parsePath m.path, (i + 1, m.col), m.full⟩)
      ++ linesScan (i + 1) rest

/-- `parse_imports` (lib.rs lines 137-165).  The `ok_or_else` error branch of
the source requires a regex match in which none of the three capture groups
participated, which the pattern's structure makes impossible; accordingly the
model always produces a capture and `parse_imports` cannot fail. -/
def parseImports (content : Text) : List NixImport :=
  linesScan 0 (toLines content)

-- sanity examples (scanner)
example :
    parseImports ("let lib = import \"lib.nix\";\nin lib".toList) =
      [⟨⟨false, ["lib.nix"]⟩, (1, 10), "import \"lib.nix\"".toList⟩] := by
  decide

example : parseImports ("{ x = 1; }".toList) = [] := by decide

/-!  str::replace — replace every non-overlapping occurrence, left to right. -/

/-- Replacement loop; the fuel decreases by one per step and each step
consumes at least one character, so `s.length` fuel is always enough. -/
def replaceGo (pat rep : Text) : Nat → Text → Text
  | 0, s => s
  | fuel + 1, s =>
    match s with
    | [] => []
    | c :: t =>
      if pat.isPrefixOf s then rep ++ replaceGo pat rep fuel (s.drop pat.length)
      else c :: replaceGo pat rep fuel t

/-- `str::replace s pat rep`.  The source never calls it with an empty
pattern (`full_import` always starts with `import`); on that dead input we
return `s` unchanged. -/
def replaceAll (s pat rep : Text) : Text :=
  match pat with
  | [] => s
  | _ => replaceGo pat rep s.length s

example :
    replaceAll ("let lib = import \"lib.nix\";\nin lib".toList)
      ("import \"lib.nix\"".toList) ("{ x = 1; }".toList) =
      ("let lib = { x = 1; };\nin lib".toList) := by decide

/-!  Errors surfaced by the core (`anyhow!` messages, lib.rs/main.rs).  The
`ReadError` of line 93 and the scanner error of line 148 are unreachable in
the model (see the comments on `FS` and `parseImports`). -/

inductive Err where
  /-- "ファイルが存在しません" (lib.rs line 89) and the entry existence check
  of main.rs lines 40-45, both of which are "no file at this path". -/
  | fileNotFound (p : PathV)
  /-- "親ディレクトリが見つかりません" (lib.rs line 128). -/
  | noParent (p : PathV)
  /-- "ファイル情報が見つかりません" (lib.rs line 197). -/
  | missingNode (p : PathV)
  /-- "エントリーポイントの内容が見つかりません" (lib.rs line 57). -/
  | entryMissing (p : PathV)
deriving DecidableEq, Repr

/-- The filesystem: a finite map from paths to file text.  Lookup is by the
canonical (cleaned absolute) path, matching how the OS resolves the lexically
equivalent paths the program hands it (no symlinks in the model). -/
abbrev FS := List (PathV × Text)

def lookupFS : FS → PathV → Option Text
  | [], _ => none
  | (k, v) :: rest, p => if p = k then some v else lookupFS rest p

/-- The dependency graph `file_contents : HashMap<PathBuf, NixFile>`. -/
abbrev Graph := List (PathV × NixFile)

def lookupG : Graph → PathV → Option NixFile
  | [], _ => none
  | (k, v) :: rest, p => if p = k then some v else lookupG rest p

def keysG (g : Graph) : List PathV := g.map Prod.fst

/-- `resolve_import_path` (lib.rs lines 120-134): absolute imports are
returned unchanged; relative ones are joined to the parent directory of the
containing file and cleaned. -/
def resolveImportPath (ip : PathV) (cur : PathV) : Except Err PathV :=
  if ip.abs then .ok ip
  else
    match parentPath cur with
    | none => .error (.noParent cur)
    | some d => .ok (cleanPath ⟨d.abs, d.segs ++ ip.segs⟩)

/-- Builder state: `processed_files`, `file_contents`, plus a read log that
instruments `fs::read_to_string` (one entry per storage read, in order). -/
structure St where
  processed : List PathV
  contents : Graph
  reads : List PathV
deriving Repr

/-- The `for import in imports` loop of `process_nix_file` (lib.rs lines
111-114), abstracted over the recursive call `child`. -/
def processImportsGo (k : PathV) (child : PathV → St → Option (Except Err St)) :
    List NixImport → St → Option (Except Err St)
  | [], st => some (.ok st)
  | imp :: rest, st =>
    match resolveImportPath imp.path k with
    | .error e => some (.error e)
    | .ok q =>
      match child q st with
      | none => none
      | some (.error e) => some (.error e)
      | some (.ok st') => processImportsGo k child rest st'

/-- `process_nix_file` (lib.rs lines 67-117), with explicit fuel bounding the
recursion depth. -/
def processNix : Nat → FS → PathV → PathV → St → Option (Except Err St)
  | 0, _, _, _, _ => none
  | fuel + 1, fs, cwd, p, st =>
    let cp := cleanAbs cwd p
    if cp ∈ st.processed then some (.ok st)
    else
      match lookupFS fs cp with
      | none => some (.error (.fileNotFound cp))
      | some content =>
        let nf : NixFile := ⟨cp, content, parseImports content⟩
        processImportsGo cp (fun q st' => processNix fuel fs cwd q st')
          (parseImports content)
          ⟨st.processed ++ [cp], st.contents ++ [(cp, nf)], st.reads ++ [cp]⟩

/-- The reversed import loop of `inline_file_recursive` (lib.rs lines
210-219), abstracted over the recursive call `child`. -/
def inlineRevGo (k : PathV) (child : PathV → Option (Except Err Text)) :
    List NixImport → Text → Option (Except Err Text)
  | [], acc => some (.ok acc)
  | imp :: rest, acc =>
    match resolveImportPath imp.path k with
    | .error e => some (.error e)
    | .ok q =>
      match child q with
      | none => none
      | some (.error e) => some (.error e)
      | some (.ok childText) =>
        inlineRevGo k child rest (replaceAll acc imp.fullImport childText)

/-- `inline_file_recursive` (lib.rs lines 180-225), with explicit fuel. -/
def inlineFileF : Nat → Graph → PathV → List PathV → PathV → Option (Except Err Text)
  | 0, _, _, _, _ => none
  | fuel + 1, g, cwd, stack, p =>
    let cp := cleanAbs cwd p
    match lookupG g cp with
    | none => some (.error (.missingNode cp))
    | some nf =>
      if cp ∈ stack then some (.ok [])
      else
        inlineRevGo cp (fun q => inlineFileF fuel g cwd (cp :: stack) q)
          nf.imports.reverse nf.content

/-- `inline_imports` (lib.rs lines 168-177): start with an empty active set. -/
def inlineImports (fuel : Nat) (g : Graph) (cwd entry : PathV) :
    Option (Except Err Text) :=
  inlineFileF fuel g cwd [] entry

/-- `bundle_nix_files` (lib.rs lines 36-64). -/
def bundleNixFiles (fuel : Nat) (fs : FS) (cwd entry : PathV) :
    Option (Except Err Text) :=
  match processNix fuel fs cwd entry ⟨[], [], []⟩ with
  | none => none
  | some (.error e) => some (.error e)
  | some (.ok st) =>
    let cleanEntry := cleanAbs cwd entry
    match lookupG st.contents cleanEntry with
    | none => some (.error (.entryMissing cleanEntry))
    | some _ =>
      match inlineImports fuel st.contents cwd cleanEntry with
      | none => none
      | some r => some r

/-- The `Bundle` branch of `main` (main.rs lines 34-58): check that the entry
exists, bundle, then write the artifact.  The returned pair is the single
`fs::write`; an `error` result models a non-zero exit with nothing written.
(The subsequent `nix-instantiate` validation is an external collaborator and
is not part of the core.) -/
def mainBundle (fuel : Nat) (fs : FS) (cwd entry output : PathV) :
    Option (Except Err (PathV × Text)) :=
  if (lookupFS fs (cleanAbs cwd entry)).isNone then
    some (.error (.fileNotFound (cleanAbs cwd entry)))
  else
    match bundleNixFiles fuel fs cwd entry with
    | none => none
    | some (.error e) => some (.error e)
    | some (.ok s) => some (.ok (output, s))

/-!  Basic unfolding lemmas. -/

theorem inlineFileF_succ (fuel : Nat) (g : Graph) (cwd : PathV)
    (stack : List PathV) (p : PathV) :
    inlineFileF (fuel + 1) g cwd stack p =
      match lookupG g (cleanAbs cwd p) with
      | none => some (.error (.missingNode (cleanAbs cwd p)))
      | some nf =>
        if cleanAbs cwd p ∈ stack then some (.ok [])
        else
          inlineRevGo (cleanAbs cwd p)
            (fun q => inlineFileF fuel g cwd (cleanAbs cwd p :: stack) q)
            nf.imports.reverse nf.content := rfl

theorem processNix_succ (fuel : Nat) (fs : FS) (cwd p : PathV) (st : St) :
    processNix (fuel + 1) fs cwd p st =
      if cleanAbs cwd p ∈ st.processed then some (.ok st)
      else
        match lookupFS fs (cleanAbs cwd p) with
        | none => some (.error (.fileNotFound (cleanAbs cwd p)))
        | some content =>
          processImportsGo (cleanAbs cwd p)
            (fun q st' => processNix fuel fs cwd q st')
            (parseImports content)
            ⟨st.processed ++ [cleanAbs cwd p],
             st.contents ++ [(cleanAbs cwd p, ⟨cleanAbs cwd p, content, parseImports content⟩)],
             st.reads ++ [cleanAbs cwd p]⟩ := rfl

/-!  Termination of the inliner: the number of graph keys outside the active
set is a strict measure. -/

def inlineMeasure (g : Graph) (stack : List PathV) : Nat :=
  (keysG g).countP (fun x => decide (x ∉ stack))

theorem lookupG_mem_keys {g : Graph} {p : PathV} {nf : NixFile}
    (h : lookupG g p = some nf) : p ∈ keysG g := by
  induction g with
  | nil => simp [lookupG] at h
  | cons kv rest ih =>
    obtain ⟨k, v⟩ := kv
    by_cases hk : p = k
    · simp [keysG, hk]
    · simp only [lookupG, if_neg hk] at h
      simpa [keysG] using Or.inr (by simpa [keysG] using ih h)

theorem countP_stack_lt {cp : PathV} {stack : List PathV} :
    ∀ ks : List PathV, cp ∈ ks → cp ∉ stack →
      ks.countP (fun x => decide (x ∉ cp :: stack)) <
        ks.countP (fun x => decide (x ∉ stack)) := by
  intro ks
  induction ks with
  | nil => intro h; simp at h
  | cons a rest ih =>
    intro hmem hns
    by_cases ha : a = cp
    · subst ha
      have h1 : (decide (a ∉ a :: stack)) = false := by simp
      have h2 : (decide (a ∉ stack)) = true := by simpa using hns
      have hle : rest.countP (fun x => decide (x ∉ a :: stack)) ≤
          rest.countP (fun x => decide (x ∉ stack)) := by
        apply List.countP_mono_left
        intro x _ hx
        simp only [decide_eq_true_eq] at hx ⊢
        intro hxs
        exact hx (List.mem_cons_of_mem _ hxs)
      simp only [List.countP_cons, h1, h2, if_true, if_false]
      simp only [Bool.false_eq_true, if_false, if_true, reduceIte]
      omega
    · have hmem' : cp ∈ rest := by
        rcases List.mem_cons.mp hmem with h | h
        · exact absurd h.symm ha
        · exact h
      have hstep : (decide (a ∉ cp :: stack)) = (decide (a ∉ stack)) := by
        by_cases hs : a ∈ stack
        · simp [hs]
        · simp [hs, Ne.symm, ha]
      simp only [List.countP_cons, hstep]
      have := ih hmem' hns
      omega

theorem inlineMeasure_lt {g : Graph} {stack : List PathV}
    {cp : PathV} (hmem : cp ∈ keysG g) (hns : cp ∉ stack) :
    inlineMeasure g (cp :: stack) < inlineMeasure g stack :=
  countP_stack_lt (keysG g) hmem hns

theorem inlineRevGo_ne_none {k : PathV} {child : PathV → Option (Except Err Text)}
    (hchild : ∀ q, child q ≠ none) :
    ∀ imps acc, inlineRevGo k child imps acc ≠ none := by
  intro imps
  induction imps with
  | nil => intro acc; simp [inlineRevGo]
  | cons imp rest ih =>
    intro acc
    simp only [inlineRevGo]
    cases hr : resolveImportPath imp.path k with
    | error e => simp [hr]
    | ok q =>
      simp only [hr]
      cases hc : child q with
      | none => exact absurd hc (hchild q)
      | some r =>
        cases r with
        | error e => simp [hc]
        | ok t => simp only [hc]; exact ih _

/-- Enough fuel never runs out: the inliner terminates on every graph,
cyclic or not. -/
theorem inlineFileF_suff :
    ∀ fuel g cwd stack p, inlineMeasure g stack < fuel →
      inlineFileF fuel g cwd stack p ≠ none := by
  intro fuel
  induction fuel with
  | zero => intro g cwd stack p h; exact absurd h (Nat.not_lt_zero _)
  | succ n ih =>
    intro g cwd stack p h
    rw [inlineFileF_succ]
    cases hl : lookupG g (cleanAbs cwd p) with
    | none => simp
    | some nf =>
      by_cases hs : cleanAbs cwd p ∈ stack
      · simp [hs]
      · simp only [if_neg hs]
        apply inlineRevGo_ne_none
        intro q
        apply ih
        have hlt : inlineMeasure g (cleanAbs cwd p :: stack) < inlineMeasure g stack :=
          inlineMeasure_lt (lookupG_mem_keys hl) hs
        omega

/-!  Lexical cleaning lemmas. -/

theorem cleanFold_append (isAbs : Bool) (xs ys : List String) :
    ∀ out, cleanFold isAbs out (xs ++ ys) =
      cleanFold isAbs (cleanFold isAbs out xs) ys := by
  induction xs with
  | nil => intro out; simp [cleanFold]
  | cons s rest ih => intro out; simp [cleanFold, ih]

theorem cleanStep_dot (b : Bool) (out : List String) :
    cleanStep b out "." = out := by
  unfold cleanStep
  rw [if_pos (Or.inr rfl)]

theorem cleanStep_push (b : Bool) (out : List String) (s : String)
    (h1 : s ≠ "") (h2 : s ≠ ".") (h3 : s ≠ "..") :
    cleanStep b out s = s :: out := by
  unfold cleanStep
  rw [if_neg (by simp [h1, h2]), if_neg h3]

theorem cleanStep_pop (b : Bool) (out : List String) (top : String)
    (h : top ≠ "..") : cleanStep b (top :: out) ".." = out := by
  simp [cleanStep, h]

theorem cleanStep_abs_no_dots (out : List String) (s : String)
    (h1 : "." ∉ out) (h2 : ".." ∉ out) :
    "." ∉ cleanStep true out s ∧ ".." ∉ cleanStep true out s := by
  by_cases ha : s = "" ∨ s = "."
  · unfold cleanStep; rw [if_pos ha]; exact ⟨h1, h2⟩
  · by_cases hb : s = ".."
    · subst hb
      cases out with
      | nil => simp [cleanStep]
      | cons top rest =>
        have htop : top ≠ ".." := fun hc => h2 (hc ▸ List.mem_cons_self _ _)
        have h1' : "." ∉ rest := fun hc => h1 (List.mem_cons_of_mem _ hc)
        have h2' : ".." ∉ rest := fun hc => h2 (List.mem_cons_of_mem _ hc)
        simp [cleanStep, htop, h1', h2']
    · have hs1 : s ≠ "" := fun hc => ha (Or.inl hc)
      have hs2 : s ≠ "." := fun hc => ha (Or.inr hc)
      rw [cleanStep_push true out s hs1 hs2 hb]
      constructor
      · intro hc
        rcases List.mem_cons.mp hc with h | h
        · exact hs2 h.symm
        · exact h1 h
      · intro hc
        rcases List.mem_cons.mp hc with h | h
        · exact hb h.symm
        · exact h2 h

theorem cleanFold_abs_no_dots :
    ∀ (l out : List String), "." ∉ out → ".." ∉ out →
      "." ∉ cleanFold true out l ∧ ".." ∉ cleanFold true out l := by
  intro l
  induction l with
  | nil => intro out h1 h2; exact ⟨h1, h2⟩
  | cons s rest ih =>
    intro out h1 h2
    have hstep := cleanStep_abs_no_dots out s h1 h2
    simpa [cleanFold] using ih (cleanStep true out s) hstep.1 hstep.2

theorem cleanSegs_abs_no_dots (segs : List String) :
    "." ∉ cleanSegs true segs ∧ ".." ∉ cleanSegs true segs := by
  have h := cleanFold_abs_no_dots segs [] (by simp) (by simp)
  unfold cleanSegs
  exact ⟨by simpa using h.1, by simpa using h.2⟩

/-!  Concrete scenarios used by the claims.  All file identities are already
canonical, the working directory is `/work`, and all imports are relative, so
they resolve against the parent directory `/` of the entry file. -/

def cwdEx : PathV := ⟨true, ["work"]⟩

def outEx : PathV := ⟨true, ["bundled.nix"]⟩

def eId : PathV := ⟨true, ["e.nix"]⟩

def aId : PathV := ⟨true, ["a.nix"]⟩

def bId : PathV := ⟨true, ["b.nix"]⟩

def libId : PathV := ⟨true, ["lib.nix"]⟩

def commonId : PathV := ⟨true, ["common.nix"]⟩

/-- Scenario 1 tree: the entry imports `lib.nix`, which has no imports. -/
def fsLib : FS :=
  [(eId, "let lib = import \"lib.nix\";\nin lib".toList),
   (libId, "{ x = 1; }".toList)]

/-- Self-import tree: the entry imports itself. -/
def fsSelf : FS := [(eId, "\x7b a = import \"e.nix\"; \x7d".toList)]

/-- The graph the builder produces for `fsSelf`. -/
def nfSelf : NixFile :=
  ⟨eId, "\x7b a = import \"e.nix\"; \x7d".toList,
   parseImports ("\x7b a = import \"e.nix\"; \x7d".toList)⟩

def gSelf : Graph := [(eId, nfSelf)]

/-- Diamond tree: the entry imports `a.nix` and `b.nix`, both of which import
`common.nix`. -/
def fsDiamond : FS :=
  [(eId, "[ (import \"a.nix\") (import \"b.nix\") ]".toList),
   (aId, "a: import \"common.nix\"".toList),
   (bId, "b: import \"common.nix\"".toList),
   (commonId, "{ c = 0; }".toList)]

/-- Tree whose entry imports a file that does not exist. -/
def fsMissing : FS := [(eId, "import \"missing.nix\"".toList)]


/-!  Claims C1, C4, C5: inliner behaviour. -/

/-- C1: inlining terminates on every dependency graph containing an import
cycle: (i) when the identity being expanded is already in the active-path set
(and is a graph node), the inliner returns the empty string instead of
recursing; (ii) the recursion never exhausts a fuel budget exceeding the
number of graph keys outside the active set, for any graph, so the
fuel-indexed embedding of the recursion terminates; (iii) concretely, for the
self-importing entry file the self-reference expands to an empty string. -/
theorem claim_C1 :
    (∀ fuel g cwd stack p nf, lookupG g (cleanAbs cwd p) = some nf →
        cleanAbs cwd p ∈ stack →
        inlineFileF (fuel + 1) g cwd stack p = some (.ok [])) ∧
    (∀ fuel g cwd stack p, inlineMeasure g stack < fuel →
        inlineFileF fuel g cwd stack p ≠ none) ∧
    bundleNixFiles 10 fsSelf cwdEx eId = some (.ok ("{ a = ; }".toList)) := by
  refine ⟨?_, inlineFileF_suff, rfl⟩
  intro fuel g cwd stack p nf hl hs
  rw [inlineFileF_succ, hl]
  simp [hs]

/-- C1 witness: the cycle cut and the fuel bound at a concrete self-importing
graph. -/
theorem claim_C1_witness :
    inlineFileF 1 gSelf cwdEx [eId] eId = some (.ok []) ∧
    inlineFileF 2 gSelf cwdEx [] eId ≠ none :=
  ⟨claim_C1.1 0 gSelf cwdEx [eId] eId nfSelf (by decide) (by decide),
   claim_C1.2.1 2 gSelf cwdEx [] eId (by decide)⟩

/-- C4: Scenario 1 — the entry file contains the directive
`import "lib.nix";`, and `lib.nix` contains no imports and has text
`{ x = 1; }`; bundling returns the entry's text with the matched directive
`import "lib.nix"` replaced exactly by `{ x = 1; }`, all other text (the
trailing semicolon included) unchanged. -/
theorem claim_C4 :
    bundleNixFiles 10 fsLib cwdEx eId =
      some (.ok ("let lib = { x = 1; };\nin lib".toList)) := rfl

/-- C5: the diamond — the entry imports `a.nix` and `b.nix`, and both of
them import `common.nix`.  Because an identity is removed from the active-path
set when its own expansion completes, `common.nix` is inlined again along
the sibling path: both expansions in the output contain the same inlined
content `{ c = 0; }`, and the builder reads each of the four files exactly
once (`common.nix` in particular is read once). -/
theorem claim_C5 :
    bundleNixFiles 10 fsDiamond cwdEx eId =
      some (.ok ("[ (a: { c = 0; }) (b: { c = 0; }) ]".toList)) ∧
    (processNix 10 fsDiamond cwdEx eId ⟨[], [], []⟩).map (fun r => r.map St.reads) =
      some (.ok [eId, aId, commonId, bId]) :=
  ⟨rfl, rfl⟩

/-!  Claims C6, C9: path normalizer. -/

/-- C6 counterexample: `resolve_import_path` returns an absolute reference
unchanged (lib.rs lines 121-124), so the absolute reference `/a/./b.nix`
resolves to a path that still contains a `.` segment — not the canonical
simplified form the claim asserts. -/
theorem claim_C6_counterexample :
    resolveImportPath ⟨true, ["a", ".", "b.nix"]⟩ ⟨true, ["base.nix"]⟩ =
      .ok ⟨true, ["a", ".", "b.nix"]⟩ ∧
    "." ∈ (PathV.mk true ["a", ".", "b.nix"]).segs :=
  ⟨rfl, by decide⟩

/-- C6 (amended): for an absolute reference `resolve_import_path` needs no
base file and returns the reference unchanged (not yet simplified); the
canonical simplification happens when the reference becomes a file identity
(`clean` at process/inline entry, lib.rs line 80/193), and that identity
contains no `.` or `..` segments. -/
theorem claim_C6 :
    ∀ ip cur cwd : PathV, ip.abs = true →
      resolveImportPath ip cur = .ok ip ∧
      "." ∉ (cleanAbs cwd ip).segs ∧ ".." ∉ (cleanAbs cwd ip).segs := by
  intro ip cur cwd habs
  have hj : joinAbs cwd ip = ip := by unfold joinAbs; rw [if_pos habs]
  have hseg : (cleanAbs cwd ip).segs = cleanSegs true ip.segs := by
    unfold cleanAbs cleanPath
    rw [hj, habs]
  refine ⟨?_, ?_, ?_⟩
  · unfold resolveImportPath; rw [if_pos habs]
  · rw [hseg]; exact (cleanSegs_abs_no_dots ip.segs).1
  · rw [hseg]; exact (cleanSegs_abs_no_dots ip.segs).2

/-- C6 witness: the amended claim at the concrete absolute reference
`/a/./b.nix`. -/
theorem claim_C6_witness :
    resolveImportPath ⟨true, ["a", ".", "b.nix"]⟩ ⟨true, ["base.nix"]⟩ =
      .ok ⟨true, ["a", ".", "b.nix"]⟩ ∧
    "." ∉ (cleanAbs cwdEx ⟨true, ["a", ".", "b.nix"]⟩).segs ∧
    ".." ∉ (cleanAbs cwdEx ⟨true, ["a", ".", "b.nix"]⟩).segs :=
  claim_C6 ⟨true, ["a", ".", "b.nix"]⟩ ⟨true, ["base.nix"]⟩ cwdEx rfl

/-- C9: path normalization collapses lexically equivalent references —
`./a/../a/b.nix` and `a/b.nix` resolve to identical identities against every
base file (and to the identical error when the base has no parent). -/
theorem claim_C9 :
    ∀ base : PathV,
      resolveImportPath (parsePath ("./a/../a/b.nix".toList)) base =
        resolveImportPath (parsePath ("a/b.nix".toList)) base := by
  intro base
  have h1 : parsePath ("./a/../a/b.nix".toList) =
      ⟨false, [".", "a", "..", "a", "b.nix"]⟩ := by decide
  have h2 : parsePath ("a/b.nix".toList) = ⟨false, ["a", "b.nix"]⟩ := by decide
  rw [h1, h2]
  obtain ⟨babs, bsegs⟩ := base
  cases bsegs with
  | nil => rfl
  | cons s rest =>
    have key : cleanSegs babs ((s :: rest).dropLast ++ [".", "a", "..", "a", "b.nix"]) =
        cleanSegs babs ((s :: rest).dropLast ++ ["a", "b.nix"]) := by
      unfold cleanSegs
      rw [cleanFold_append, cleanFold_append]
      generalize cleanFold babs [] ((s :: rest).dropLast) = st
      simp only [cleanFold]
      rw [cleanStep_dot babs st,
          cleanStep_push babs st "a" (by decide) (by decide) (by decide),
          cleanStep_pop babs st "a" (by decide),
          cleanStep_push babs st "a" (by decide) (by decide) (by decide),
          cleanStep_push babs ("a" :: st) "b.nix" (by decide) (by decide) (by decide)]
    show Except.ok (cleanPath ⟨babs, (s :: rest).dropLast ++ [".", "a", "..", "a", "b.nix"]⟩) =
        Except.ok (cleanPath ⟨babs, (s :: rest).dropLast ++ ["a", "b.nix"]⟩)
    unfold cleanPath
    rw [key]

/-!  Claim C10: the no-import case of the inliner is the identity. -/

/-- C10: for every file present in the graph whose import list is empty,
inlining returns the file's raw content unchanged. -/
theorem claim_C10 :
    ∀ fuel g cwd stack p nf, lookupG g (cleanAbs cwd p) = some nf →
      nf.imports = [] → cleanAbs cwd p ∉ stack →
      inlineFileF (fuel + 1) g cwd stack p = some (.ok nf.content) := by
  intro fuel g cwd stack p nf hl hemp hs
  rw [inlineFileF_succ, hl]
  simp [hs, hemp, inlineRevGo]

/-- Graph with a single import-free node, for the C10 witness. -/
def nfLib : NixFile := ⟨libId, "{ x = 1; }".toList, []⟩

def gLib : Graph := [(libId, nfLib)]

/-- C10 witness: the import-free node inlines to its own content. -/
theorem claim_C10_witness :
    inlineFileF 3 gLib cwdEx [] libId = some (.ok ("{ x = 1; }".toList)) :=
  claim_C10 2 gLib cwdEx [] libId nfLib (by decide) (by decide) (by decide)

/-!  Claim C8: the scanner emits occurrences in line order, and within a line
in left-to-right order of the non-overlapping matches. -/

theorem matchAt_full_pos :
    ∀ {l : List Char} {p f : Text}, matchAt l = some (p, f) → 0 < f.length := by
  intro l p f h
  simp only [matchAt] at h
  split at h
  · split at h
    · exact absurd h (by simp)
    · split at h
      · split at h
        · simp only [Option.some.injEq, Prod.mk.injEq] at h
          rw [← h.2]; simp
        · split at h
          · exact absurd h (by simp)
          · simp only [Option.some.injEq, Prod.mk.injEq] at h
            rw [← h.2]; simp
      · split at h
        · simp only [Option.some.injEq, Prod.mk.injEq] at h
          rw [← h.2]; simp
        · split at h
          · exact absurd h (by simp)
          · simp only [Option.some.injEq, Prod.mk.injEq] at h
            rw [← h.2]; simp
      · split at h
        · exact absurd h (by simp)
        · simp only [Option.some.injEq, Prod.mk.injEq] at h
          rw [← h.2]; simp
  · exact absurd h (by simp)

theorem scanGo_col_lb :
    ∀ fuel l pos, ∀ m ∈ scanGo fuel l pos, pos ≤ m.col := by
  intro fuel
  induction fuel with
  | zero => intro l pos m hm; simp [scanGo] at hm
  | succ n ih =>
    intro l pos m hm
    cases l with
    | nil => simp [scanGo] at hm
    | cons c t =>
      cases hma : matchAt (c :: t) with
      | some pf =>
        obtain ⟨p, f⟩ := pf
        simp only [scanGo, hma] at hm
        rcases List.mem_cons.mp hm with h | h
        · subst h; exact le_refl _
        · have := ih _ _ m h
          omega
      | none =>
        simp only [scanGo, hma] at hm
        have := ih _ _ m hm
        omega

theorem scanGo_pairwise :
    ∀ fuel l pos, (scanGo fuel l pos).Pairwise (fun a b => a.col < b.col) := by
  intro fuel
  induction fuel with
  | zero => intro l pos; simp [scanGo]
  | succ n ih =>
    intro l pos
    cases l with
    | nil => simp [scanGo]
    | cons c t =>
      cases hma : matchAt (c :: t) with
      | some pf =>
        obtain ⟨p, f⟩ := pf
        simp only [scanGo, hma]
        refine List.Pairwise.cons ?_ (ih _ _)
        intro m hm
        have hlb := scanGo_col_lb n _ _ m hm
        have hf := matchAt_full_pos hma
        simp only []
        omega
      | none =>
        simp only [scanGo, hma]
        exact ih _ _

/-- Occurrence order: earlier line, or same line and earlier column. -/
def occBefore (a b : NixImport) : Prop :=
  a.pos.1 < b.pos.1 ∨ (a.pos.1 = b.pos.1 ∧ a.pos.2 < b.pos.2)

theorem linesScan_line_lb :
    ∀ ls i m, m ∈ linesScan i ls → i + 1 ≤ m.pos.1 := by
  intro ls
  induction ls with
  | nil => intro i m hm; simp [linesScan] at hm
  | cons line rest ih =>
    intro i m hm
    simp only [linesScan, List.mem_append] at hm
    rcases hm with h | h
    · rcases List.mem_map.mp h with ⟨r, _, hr⟩
      rw [← hr]
    · have := ih (i + 1) m h
      omega

theorem linesScan_pairwise :
    ∀ ls i, (linesScan i ls).Pairwise occBefore := by
  intro ls
  induction ls with
  | nil => intro i; simp [linesScan]
  | cons line rest ih =>
    intro i
    simp only [linesScan]
    rw [List.pairwise_append]
    refine ⟨?_, ih (i + 1), ?_⟩
    · rw [List.pairwise_map]
      refine (scanGo_pairwise line.length line 0).imp ?_
      intro a b hab
      exact Or.inr ⟨rfl, hab⟩
    · intro a ha b hb
      rcases List.mem_map.mp ha with ⟨r, _, hr⟩
      have hb1 := linesScan_line_lb rest (i + 1) b hb
      left
      rw [← hr]
      simpa using hb1

/-- C8: for every input text, the Import Scanner returns its occurrences
ordered by line number first and, within a line, by left-to-right position
of the non-overlapping matches. -/
theorem claim_C8 :
    ∀ content : Text, (parseImports content).Pairwise occBefore := by
  intro content
  unfold parseImports
  exact linesScan_pairwise (toLines content) 0

/-!  Dependency Graph Builder: invariants of `process_nix_file`. -/

/-- Identities transitively reachable from `root` (itself an identity):
follow import occurrences of existing files, resolving each against its
containing file and canonicalizing the result exactly as the builder does. -/
inductive Reach (fs : FS) (cwd : PathV) (root : PathV) : PathV → Prop
  | base : Reach fs cwd root root
  | step {k c imp q} : Reach fs cwd root k → lookupFS fs k = some c →
      imp ∈ parseImports c → resolveImportPath imp.path k = .ok q →
      Reach fs cwd root (cleanAbs cwd q)

/-- A well-formed filesystem stores no file at the root path itself (a real
OS root is a directory, never a readable file). -/
def fsWF (fs : FS) : Prop := ∀ k c, lookupFS fs k = some c → k.segs ≠ []

/-- Builder-state invariant: the read log is duplicate-free and matches the
processed set, the processed set matches the graph keys, and every stored
node faithfully records its file. -/
structure InvSt (fs : FS) (st : St) : Prop where
  readsNodup : st.reads.Nodup
  procReads : ∀ x, x ∈ st.processed ↔ x ∈ st.reads
  procKeys : ∀ x, x ∈ st.processed ↔ x ∈ keysG st.contents
  faithful : ∀ k nf, (k, nf) ∈ st.contents →
    nf.path = k ∧ lookupFS fs k = some nf.content ∧ nf.imports = parseImports nf.content

/-- State extension during the DFS. -/
structure MonoSt (st st' : St) : Prop where
  proc : ∀ x ∈ st.processed, x ∈ st'.processed
  cont : ∀ y ∈ st.contents, y ∈ st'.contents
  reads : ∀ x ∈ st.reads, x ∈ st'.reads

theorem MonoSt.refl (st : St) : MonoSt st st :=
  ⟨fun _ hx => hx, fun _ hy => hy, fun _ hx => hx⟩

theorem MonoSt.trans {s1 s2 s3 : St} (h1 : MonoSt s1 s2) (h2 : MonoSt s2 s3) :
    MonoSt s1 s3 :=
  ⟨fun x hx => h2.proc x (h1.proc x hx), fun y hy => h2.cont y (h1.cont y hy),
   fun x hx => h2.reads x (h1.reads x hx)⟩

/-- Closure up to pending obligations: every import of every stored node is
either still pending or already has its resolved identity processed. -/
def CEP (cwd : PathV) (st : St) (pending : List (PathV × NixImport)) : Prop :=
  ∀ k nf, (k, nf) ∈ st.contents → ∀ imp ∈ nf.imports, ∀ q,
    resolveImportPath imp.path k = .ok q →
    (k, imp) ∈ pending ∨ cleanAbs cwd q ∈ st.processed

theorem mem_keysG_exists {g : Graph} {k : PathV} (h : k ∈ keysG g) :
    ∃ nf, (k, nf) ∈ g := by
  rcases List.mem_map.mp h with ⟨⟨k', v⟩, hp, heq⟩
  exact ⟨v, by simpa [← heq] using hp⟩

theorem lookupG_of_mem_keys {g : Graph} {k : PathV} (h : k ∈ keysG g) :
    ∃ nf, lookupG g k = some nf := by
  induction g with
  | nil => simp [keysG] at h
  | cons kv rest ih =>
    obtain ⟨k0, v0⟩ := kv
    by_cases hk : k = k0
    · exact ⟨v0, by simp [lookupG, hk]⟩
    · have h' : k ∈ k0 :: keysG rest := h
      rcases List.mem_cons.mp h' with h1 | h1
      · exact absurd h1 hk
      · rcases ih h1 with ⟨nf, hnf⟩
        exact ⟨nf, by simp [lookupG, hk, hnf]⟩

/-- The import loop preserves the invariant, extends the state, processes
every import's resolved identity, and discharges its pending obligations. -/
theorem processImportsGo_ok (fs : FS) (cwd k : PathV)
    (child : PathV → St → Option (Except Err St))
    (hchild : ∀ q st st', child q st = some (.ok st') → InvSt fs st →
      InvSt fs st' ∧ MonoSt st st' ∧ cleanAbs cwd q ∈ st'.processed ∧
      (∀ pend, CEP cwd st pend → CEP cwd st' pend)) :
    ∀ imps st st', processImportsGo k child imps st = some (.ok st') → InvSt fs st →
      InvSt fs st' ∧ MonoSt st st' ∧
      (∀ imp ∈ imps, ∀ q, resolveImportPath imp.path k = .ok q →
        cleanAbs cwd q ∈ st'.processed) ∧
      (∀ pend, CEP cwd st (imps.map (fun imp => (k, imp)) ++ pend) → CEP cwd st' pend) := by
  intro imps
  induction imps with
  | nil =>
    intro st st' h hInv
    simp only [processImportsGo, Option.some.injEq, Except.ok.injEq] at h
    subst h
    exact ⟨hInv, MonoSt.refl st, by simp, fun pend hc => by simpa using hc⟩
  | cons imp rest ih =>
    intro st st' h hInv
    simp only [processImportsGo] at h
    split at h
    · simp at h
    · rename_i q hres
      split at h
      · simp at h
      · simp at h
      · rename_i st1 hc
        obtain ⟨hInv1, hmono1, hq1, hcep1⟩ := hchild q st st1 hc hInv
        obtain ⟨hInv', hmono', himps', hcep'⟩ := ih st1 st' h hInv1
        refine ⟨hInv', MonoSt.trans hmono1 hmono', ?_, ?_⟩
        · intro imp' hmem q' hres'
          rcases List.mem_cons.mp hmem with heq | hmem'
          · subst heq
            rw [hres] at hres'
            injection hres' with hqq
            subst hqq
            exact hmono'.proc _ hq1
          · exact himps' imp' hmem' q' hres'
        · intro pend hcep
          apply hcep' pend
          have hstep : CEP cwd st1 ((k, imp) :: (rest.map (fun i => (k, i)) ++ pend)) := by
            apply hcep1
            intro k' nf' hmem' imp' himp' q' hres'
            have := hcep k' nf' hmem' imp' himp' q' hres'
            simpa using this
          intro k' nf' hmem' imp' himp' q' hres'
          rcases hstep k' nf' hmem' imp' himp' q' hres' with hin | hproc
          · rcases List.mem_cons.mp hin with heq | hin'
            · have hk : k' = k := congrArg Prod.fst heq
              have hi : imp' = imp := congrArg Prod.snd heq
              subst hk; subst hi
              rw [hres] at hres'
              injection hres' with hqq
              subst hqq
              exact Or.inr hq1
            · exact Or.inl hin'
          · exact Or.inr hproc

/-- Master invariant theorem for the builder: on success the invariant is
preserved, the state only grows, the target identity ends up processed, and
pending closure obligations are transferred. -/
theorem processNix_ok :
    ∀ fuel fs cwd p st st',
      processNix fuel fs cwd p st = some (.ok st') → InvSt fs st →
      InvSt fs st' ∧ MonoSt st st' ∧ cleanAbs cwd p ∈ st'.processed ∧
      (∀ pend, CEP cwd st pend → CEP cwd st' pend) := by
  intro fuel
  induction fuel with
  | zero => intro fs cwd p st st' h; simp [processNix] at h
  | succ n ih =>
    intro fs cwd p st st' h hInv
    rw [processNix_succ] at h
    by_cases hmem : cleanAbs cwd p ∈ st.processed
    · rw [if_pos hmem] at h
      simp only [Option.some.injEq, Except.ok.injEq] at h
      subst h
      exact ⟨hInv, MonoSt.refl st, hmem, fun pend hc => hc⟩
    · rw [if_neg hmem] at h
      split at h
      · simp at h
      · rename_i content hfs
        have hreads : cleanAbs cwd p ∉ st.reads :=
          fun hc => hmem ((hInv.procReads _).mpr hc)
        have hInv1 : InvSt fs
            ⟨st.processed ++ [cleanAbs cwd p],
             st.contents ++ [(cleanAbs cwd p, ⟨cleanAbs cwd p, content, parseImports content⟩)],
             st.reads ++ [cleanAbs cwd p]⟩ := by
          refine ⟨?_, ?_, ?_, ?_⟩
          · exact hInv.readsNodup.append (List.nodup_singleton _)
              (List.disjoint_singleton.mpr hreads)
          · intro x
            simp only [List.mem_append]
            exact or_congr (hInv.procReads x) Iff.rfl
          · intro x
            simp only [List.mem_append, keysG, List.map_append, List.map_cons]
            exact or_congr (by simpa [keysG] using hInv.procKeys x) Iff.rfl
          · intro k nf hmem0
            rcases List.mem_append.mp hmem0 with hold | hnew
            · exact hInv.faithful k nf hold
            · have hk : k = cleanAbs cwd p ∧
                  nf = ⟨cleanAbs cwd p, content, parseImports content⟩ := by
                simpa [Prod.ext_iff] using hnew
              obtain ⟨hk1, hk2⟩ := hk
              subst hk1; subst hk2
              exact ⟨rfl, hfs, rfl⟩
        have hgo := processImportsGo_ok fs cwd (cleanAbs cwd p) _
          (fun q a b hb ha => ih fs cwd q a b hb ha) (parseImports content) _ st' h hInv1
        obtain ⟨hInv', hmono', htars, hcep'⟩ := hgo
        have hmono01 : MonoSt st
            ⟨st.processed ++ [cleanAbs cwd p],
             st.contents ++ [(cleanAbs cwd p, ⟨cleanAbs cwd p, content, parseImports content⟩)],
             st.reads ++ [cleanAbs cwd p]⟩ :=
          ⟨fun x hx => List.mem_append_left _ hx, fun y hy => List.mem_append_left _ hy,
           fun x hx => List.mem_append_left _ hx⟩
        refine ⟨hInv', MonoSt.trans hmono01 hmono', ?_, ?_⟩
        · exact hmono'.proc _ (List.mem_append_right _ (List.mem_singleton.mpr rfl))
        · intro pend hcep
          apply hcep' pend
          intro k' nf' hmem' imp' himp' q' hres'
          rcases List.mem_append.mp hmem' with hold | hnew
          · rcases hcep k' nf' hold imp' himp' q' hres' with hp | hp
            · exact Or.inl (List.mem_append_right _ hp)
            · exact Or.inr (List.mem_append_left _ hp)
          · have hk : k' = cleanAbs cwd p ∧
                nf' = ⟨cleanAbs cwd p, content, parseImports content⟩ := by
              simpa [Prod.ext_iff] using hnew
            obtain ⟨hk1, hk2⟩ := hk
            subst hk1; subst hk2
            left
            apply List.mem_append_left
            exact List.mem_map.mpr ⟨imp', himp', rfl⟩

/-- DFS completeness: in a final state that satisfies the invariant, has no
pending obligations and contains the root, every reachable identity has been
processed. -/
theorem reach_processed {fs : FS} {cwd root : PathV} {st : St}
    (hInv : InvSt fs st) (hcep : CEP cwd st []) (hroot : root ∈ st.processed) :
    ∀ q, Reach fs cwd root q → q ∈ st.processed := by
  intro q hq
  induction hq with
  | base => exact hroot
  | step hk hlook himp hres ih =>
    rename_i k c imp q'
    rcases mem_keysG_exists ((hInv.procKeys k).mp ih) with ⟨nf, hnf⟩
    obtain ⟨hpath, hlook', himps⟩ := hInv.faithful k nf hnf
    rw [hlook] at hlook'
    have hc : c = nf.content := Option.some.inj hlook'
    have himp' : imp ∈ nf.imports := by
      rw [himps, ← hc]; exact himp
    rcases hcep k nf hnf imp himp' q' hres with hfalse | hproc
    · simp at hfalse
    · exact hproc

/-- If the containing file exists it is not the root, so every import of it
resolves successfully. -/
theorem resolve_ok_of_ne_nil (ip : PathV) {k : PathV} (h : k.segs ≠ []) :
    ∃ q, resolveImportPath ip k = Except.ok q := by
  unfold resolveImportPath
  by_cases ha : ip.abs
  · rw [if_pos ha]; exact ⟨ip, rfl⟩
  · rw [if_neg ha]
    unfold parentPath
    cases hseg : k.segs with
    | nil => exact absurd hseg h
    | cons s rest => exact ⟨_, rfl⟩

/-- If the import loop fails, the failure is a `FileNotFoundError` naming a
reachable missing identity. -/
theorem processImportsGo_err (fs : FS) (cwd k root : PathV)
    (child : PathV → St → Option (Except Err St)) (c : Text)
    (hwf : fsWF fs)
    (hk : lookupFS fs k = some c)
    (hreach : Reach fs cwd root k)
    (hchild : ∀ q st e, child q st = some (.error e) →
      Reach fs cwd root (cleanAbs cwd q) →
      ∃ x, Reach fs cwd root x ∧ lookupFS fs x = none ∧ e = .fileNotFound x) :
    ∀ imps st e, (∀ imp ∈ imps, imp ∈ parseImports c) →
      processImportsGo k child imps st = some (.error e) →
      ∃ x, Reach fs cwd root x ∧ lookupFS fs x = none ∧ e = .fileNotFound x := by
  intro imps
  induction imps with
  | nil => intro st e _ h; simp [processImportsGo] at h
  | cons imp rest ih =>
    intro st e hsub h
    simp only [processImportsGo] at h
    split at h
    · rename_i e0 hres
      rcases resolve_ok_of_ne_nil imp.path (hwf k c hk) with ⟨q, hq⟩
      rw [hq] at hres
      simp at hres
    · rename_i q hres
      split at h
      · simp at h
      · rename_i e' hc
        simp only [Option.some.injEq, Except.error.injEq] at h
        have hstep : Reach fs cwd root (cleanAbs cwd q) :=
          Reach.step hreach hk (hsub imp (List.mem_cons_self _ _)) hres
        rcases hchild q st e' hc hstep with ⟨x, hx1, hx2, hx3⟩
        exact ⟨x, hx1, hx2, by rw [← h, hx3]⟩
      · rename_i st1 hc
        exact ih st1 e (fun i hi => hsub i (List.mem_cons_of_mem _ hi)) h

/-- If the builder fails, the failure is a `FileNotFoundError` naming a
reachable missing identity (provided the filesystem stores no file at the
root path). -/
theorem processNix_err :
    ∀ fuel fs cwd root p st e, fsWF fs →
      processNix fuel fs cwd p st = some (.error e) →
      Reach fs cwd root (cleanAbs cwd p) →
      ∃ x, Reach fs cwd root x ∧ lookupFS fs x = none ∧ e = .fileNotFound x := by
  intro fuel
  induction fuel with
  | zero => intro fs cwd root p st e hwf h; simp [processNix] at h
  | succ n ih =>
    intro fs cwd root p st e hwf h hreach
    rw [processNix_succ] at h
    by_cases hmem : cleanAbs cwd p ∈ st.processed
    · rw [if_pos hmem] at h; simp at h
    · rw [if_neg hmem] at h
      split at h
      · rename_i hfs
        simp only [Option.some.injEq, Except.error.injEq] at h
        exact ⟨cleanAbs cwd p, hreach, hfs, h.symm⟩
      · rename_i content hfs
        exact processImportsGo_err fs cwd (cleanAbs cwd p) root _ content hwf hfs hreach
          (fun q st0 e0 h0 hr0 => ih fs cwd root q st0 e0 hwf h0 hr0)
          (parseImports content) _ e (fun i hi => hi) h

/-!  Claims C2, C3, C7: builder properties. -/

/-- C2: an identity already recorded as processed is skipped immediately,
and in a successful build starting from the empty state the read log is
duplicate-free with every reachable identity read exactly once — each
distinct file identity is read from storage exactly once no matter how many
files import it. -/
theorem claim_C2 :
    (∀ fuel fs cwd p st, cleanAbs cwd p ∈ st.processed →
        processNix (fuel + 1) fs cwd p st = some (.ok st)) ∧
    (∀ fuel fs cwd entry st',
        processNix fuel fs cwd entry ⟨[], [], []⟩ = some (.ok st') →
        st'.reads.Nodup ∧
        (∀ q, Reach fs cwd (cleanAbs cwd entry) q → st'.reads.count q = 1)) := by
  constructor
  · intro fuel fs cwd p st hmem
    rw [processNix_succ, if_pos hmem]
  · intro fuel fs cwd entry st' h
    have hInv0 : InvSt fs ⟨[], [], []⟩ :=
      ⟨List.nodup_nil, by simp, by simp [keysG], by simp⟩
    obtain ⟨hInv', hmono, hroot, hcep⟩ := processNix_ok fuel fs cwd entry _ st' h hInv0
    have hcep0 : CEP cwd st' [] := hcep [] (by intro a b hm; simp at hm)
    refine ⟨hInv'.readsNodup, ?_⟩
    intro q hq
    have hqp := reach_processed hInv' hcep0 hroot q hq
    exact List.count_eq_one_of_mem hInv'.readsNodup ((hInv'.procReads q).mp hqp)

/-- Files of the Scenario 1 tree, and the state the builder ends in. -/
def txtE : Text := "let lib = import \"lib.nix\";\nin lib".toList

def txtL : Text := "{ x = 1; }".toList

def nfE : NixFile := ⟨eId, txtE, parseImports txtE⟩

def stLib : St :=
  ⟨[eId, libId], [(eId, nfE), (libId, ⟨libId, txtL, parseImports txtL⟩)], [eId, libId]⟩

/-- C2 witness: skip-on-reentry and the exactly-once read log on the
concrete two-file tree. -/
theorem claim_C2_witness :
    processNix 6 fsLib cwdEx eId ⟨[eId], [], []⟩ = some (.ok ⟨[eId], [], []⟩) ∧
    (stLib.reads.Nodup ∧
      ∀ q, Reach fsLib cwdEx (cleanAbs cwdEx eId) q → stLib.reads.count q = 1) :=
  ⟨claim_C2.1 5 fsLib cwdEx eId ⟨[eId], [], []⟩ (by decide),
   claim_C2.2 10 fsLib cwdEx eId stLib rfl⟩

/-- C3: the closure invariant — in any graph returned by a successful build,
every import target of every stored node, resolved against its containing
file and canonicalized into an identity, is itself a key of the graph. -/
theorem claim_C3 :
    ∀ fuel fs cwd entry st',
      processNix fuel fs cwd entry ⟨[], [], []⟩ = some (.ok st') →
      ∀ k nf, (k, nf) ∈ st'.contents → ∀ imp ∈ nf.imports, ∀ q,
        resolveImportPath imp.path k = .ok q →
        cleanAbs cwd q ∈ keysG st'.contents := by
  intro fuel fs cwd entry st' h k nf hmem imp himp q hres
  have hInv0 : InvSt fs ⟨[], [], []⟩ :=
    ⟨List.nodup_nil, by simp, by simp [keysG], by simp⟩
  obtain ⟨hInv', hmono, hroot, hcep⟩ := processNix_ok fuel fs cwd entry _ st' h hInv0
  have hcep0 : CEP cwd st' [] := hcep [] (by intro a b hm; simp at hm)
  rcases hcep0 k nf hmem imp himp q hres with hfalse | hproc
  · simp at hfalse
  · exact (hInv'.procKeys _).mp hproc

/-- The single import occurrence of the Scenario 1 entry file. -/
def impLib : NixImport :=
  ⟨⟨false, ["lib.nix"]⟩, (1, 10), "import \"lib.nix\"".toList⟩

/-- C3 witness: the entry's import target is a key of the built graph. -/
theorem claim_C3_witness :
    cleanAbs cwdEx ⟨true, ["lib.nix"]⟩ ∈ keysG stLib.contents :=
  claim_C3 10 fsLib cwdEx eId stLib rfl eId nfE (by decide) impLib (by decide)
    ⟨true, ["lib.nix"]⟩ rfl

/-- C7: if any identity transitively reachable from the entry point has no
file, every completed run fails with a `FileNotFoundError` naming a missing
reachable path, and `main` writes no output (the model's write value exists
only in the `ok` result). -/
theorem claim_C7 :
    ∀ fuel fs cwd entry output r,
      fsWF fs →
      (∃ q0, Reach fs cwd (cleanAbs cwd entry) q0 ∧ lookupFS fs q0 = none) →
      mainBundle fuel fs cwd entry output = some r →
      ∃ q, Reach fs cwd (cleanAbs cwd entry) q ∧ lookupFS fs q = none ∧
        r = .error (.fileNotFound q) := by
  intro fuel fs cwd entry output r hwf hmiss h
  unfold mainBundle at h
  by_cases hent : (lookupFS fs (cleanAbs cwd entry)).isNone
  · rw [if_pos hent] at h
    simp only [Option.some.injEq] at h
    exact ⟨cleanAbs cwd entry, Reach.base, Option.isNone_iff_eq_none.mp hent, h.symm⟩
  · rw [if_neg hent] at h
    cases hp : processNix fuel fs cwd entry ⟨[], [], []⟩ with
    | none =>
      have hb : bundleNixFiles fuel fs cwd entry = none := by
        unfold bundleNixFiles; rw [hp]
      rw [hb] at h
      simp at h
    | some rr =>
      cases rr with
      | error e =>
        have hb : bundleNixFiles fuel fs cwd entry = some (.error e) := by
          unfold bundleNixFiles; rw [hp]
        rw [hb] at h
        simp only [Option.some.injEq] at h
        rcases processNix_err fuel fs cwd (cleanAbs cwd entry) entry _ e hwf hp
          Reach.base with ⟨x, hx1, hx2, hx3⟩
        exact ⟨x, hx1, hx2, by rw [← h, hx3]⟩
      | ok st =>
        rcases hmiss with ⟨q0, hq0r, hq0n⟩
        have hInv0 : InvSt fs ⟨[], [], []⟩ :=
          ⟨List.nodup_nil, by simp, by simp [keysG], by simp⟩
        obtain ⟨hInv', hmono, hroot, hcep⟩ := processNix_ok fuel fs cwd entry _ st hp hInv0
        have hcep0 : CEP cwd st [] := hcep [] (by intro a b hm; simp at hm)
        have hq0p := reach_processed hInv' hcep0 hroot q0 hq0r
        rcases mem_keysG_exists ((hInv'.procKeys q0).mp hq0p) with ⟨nf, hnf⟩
        have hlk := (hInv'.faithful q0 nf hnf).2.1
        rw [hq0n] at hlk
        exact absurd hlk (by simp)

theorem fsWF_fsMissing : fsWF fsMissing := by
  intro k c h
  simp only [fsMissing, lookupFS] at h
  split at h
  · rename_i heq
    subst heq
    decide
  · simp at h

/-- The import occurrence of the missing-file tree's entry. -/
def impMissing : NixImport :=
  ⟨⟨false, ["missing.nix"]⟩, (1, 0), "import \"missing.nix\"".toList⟩

theorem reach_missing :
    Reach fsMissing cwdEx (cleanAbs cwdEx eId) ⟨true, ["missing.nix"]⟩ := by
  have h : Reach fsMissing cwdEx (cleanAbs cwdEx eId)
      (cleanAbs cwdEx ⟨true, ["missing.nix"]⟩) :=
    @Reach.step fsMissing cwdEx (cleanAbs cwdEx eId) (cleanAbs cwdEx eId)
      ("import \"missing.nix\"".toList) impMissing ⟨true, ["missing.nix"]⟩
      Reach.base rfl (by decide) rfl
  exact h

/-- C7 witness: the concrete tree whose entry imports a nonexistent file —
the run completes with `FileNotFoundError /missing.nix`, nothing written. -/
theorem claim_C7_witness :
    ∃ q, Reach fsMissing cwdEx (cleanAbs cwdEx eId) q ∧ lookupFS fsMissing q = none ∧
      (Except.error (Err.fileNotFound ⟨true, ["missing.nix"]⟩) :
        Except Err (PathV × Text)) = .error (.fileNotFound q) :=
  claim_C7 5 fsMissing cwdEx eId outEx _ fsWF_fsMissing
    ⟨⟨true, ["missing.nix"]⟩, reach_missing, rfl⟩ rfl
